import Mathlib

/-!
Verification of the `ringbuffer_C` repository (src/ring_buffer.c, src/ring_buffer.h).

The C code implements a fixed-capacity circular byte buffer:

  typedef struct s_rb { uint8_t *buffer; size_t head; size_t tail; size_t maxlen; } t_rb;

We embed the four operations `rb_push`, `rb_pop`, `rb_init`, `rb_clean` shallowly.
`buffer` becomes `Option (List Nat)`: `none` models the NULL pointer (after
`rb_clean`), `some b` models an allocated region whose cells hold the byte values.
`size_t` indices become `Nat`.  `uint8_t` data becomes `Nat` (the operations do no
arithmetic on the data, so the byte domain is the sub-domain `data < 256`).
The C return codes -1 (error) and 0 (success) become `Int`.
The unspecified fresh contents of `malloc` are modelled by passing the initial cell
contents `mem` to `rb_init` explicitly.  Wraparound in the source is by comparison
(`if (next >= c->maxlen) next = 0;`), never by `%`; the embedding mirrors that.
-/

namespace RB

/-- The struct `t_rb` from src/ring_buffer.h. -/
structure t_rb where
  buffer : Option (List Nat)
  head : Nat
  tail : Nat
  maxlen : Nat
deriving DecidableEq, Repr

/-- The local `next` computation shared by `rb_push` and `rb_pop`:
    `next = i + 1; if (next >= maxlen) next = 0;`. -/
def rbNext (maxlen i : Nat) : Nat :=
  if maxlen ≤ i + 1 then 0 else i + 1

/-- Embedding of `rb_push` from src/ring_buffer.c, lines 3-15:
    next = head + 1; if (next >= maxlen) next = 0;
    if (next == tail) return -1;
    buffer[head] = data; head = next; return 0. -/
def rb_push (c : t_rb) (data : Nat) : Int × t_rb :=
  if rbNext c.maxlen c.head = c.tail then (-1, c)
  else (0, { c with buffer := Option.map (fun b => b.set c.head data) c.buffer,
                    head := rbNext c.maxlen c.head })

/-- Embedding of `rb_pop` from src/ring_buffer.c, lines 17-29.  The out-parameter `uint8_t *data`
    is modelled in-out: the third component is the content of the caller cell after
    the call (unchanged `data` on the Empty error, `buffer[tail]` on success). -/
def rb_pop (c : t_rb) (data : Nat) : Int × t_rb × Nat :=
  if c.head = c.tail then (-1, c, data)
  else (0, { c with tail := rbNext c.maxlen c.tail }, (c.buffer.getD []).getD c.tail 0)

/-- Embedding of `rb_init` from src/ring_buffer.c, lines 31-37.  `mem` is the (arbitrary)
    content of the freshly malloced region; faithfulness requires
    `mem.length = size`, carried as a hypothesis where needed. -/
def rb_init (size : Nat) (mem : List Nat) : t_rb :=
  { buffer := some mem, head := 0, tail := 0, maxlen := size }

/-- Embedding of `rb_clean` from src/ring_buffer.c, lines 39-47: free(buffer) if non-NULL,
    then buffer = NULL, head = tail = maxlen = 0. -/
def rb_clean (_ : t_rb) : t_rb :=
  { buffer := none, head := 0, tail := 0, maxlen := 0 }

/-- Whether a call of `rb_clean` on state `c` actually performs a `free`:
    the source guards the free with `if (c->buffer)`. -/
def rbCleanFrees (c : t_rb) : Bool :=
  c.buffer.isSome

/-- Number of occupied slots: `(head - tail + maxlen) % maxlen` (spec §3). -/
def rbCount (c : t_rb) : Nat :=
  (c.head + c.maxlen - c.tail) % c.maxlen

/-- States reachable through the API: some `rb_init` (on a fresh or used struct),
    then any sequence of `rb_push`, `rb_pop`, `rb_clean`. -/
inductive Reachable : t_rb → Prop where
  | init : ∀ size mem, mem.length = size → Reachable (rb_init size mem)
  | push : ∀ c d, Reachable c → Reachable (rb_push c d).2
  | pop : ∀ c d, Reachable c → Reachable (rb_pop c d).2.1
  | clean : ∀ c, Reachable c → Reachable (rb_clean c)

/-- The state invariant maintained by the API. -/
def Inv (c : t_rb) : Prop :=
  (0 < c.maxlen → c.head < c.maxlen ∧ c.tail < c.maxlen ∧ c.buffer.isSome = true) ∧
  (c.maxlen = 0 → c.head = 0 ∧ c.tail = 0) ∧
  (∀ b, c.buffer = some b → b.length = c.maxlen)

theorem inv_init (size : Nat) (mem : List Nat) (h : mem.length = size) :
    Inv (rb_init size mem) := by
  refine ⟨fun _ => ⟨?_, ?_, ?_⟩, fun _ => ⟨rfl, rfl⟩, ?_⟩ <;>
    simp_all [rb_init]

theorem inv_clean (c : t_rb) : Inv (rb_clean c) := by
  refine ⟨fun h => ?_, fun _ => ⟨rfl, rfl⟩, ?_⟩ <;> simp_all [rb_clean]

theorem rbNext_lt (maxlen i : Nat) (h : 0 < maxlen) : rbNext maxlen i < maxlen := by
  unfold rbNext
  split <;> omega

theorem push_fail_eq (c : t_rb) (d : Nat) (h : (rb_push c d).1 ≠ 0) :
    (rb_push c d).1 = -1 ∧ (rb_push c d).2 = c := by
  by_cases hfull : rbNext c.maxlen c.head = c.tail
  · simp [rb_push, hfull]
  · simp [rb_push, hfull] at h

theorem pop_fail_eq (c : t_rb) (e : Nat) (h : (rb_pop c e).1 ≠ 0) :
    (rb_pop c e).1 = -1 ∧ (rb_pop c e).2.1 = c ∧ (rb_pop c e).2.2 = e := by
  by_cases hemp : c.head = c.tail
  · simp [rb_pop, hemp]
  · simp [rb_pop, hemp] at h

theorem inv_push (c : t_rb) (d : Nat) (hc : Inv c) : Inv (rb_push c d).2 := by
  obtain ⟨h1, h2, h3⟩ := hc
  unfold rb_push Inv
  split
  · exact ⟨h1, h2, h3⟩
  · rename_i hne
    rcases Nat.eq_zero_or_pos c.maxlen with h0 | h0
    · obtain ⟨hh, ht⟩ := h2 h0
      simp [rbNext, hh, ht, h0] at hne
    · obtain ⟨hh, ht, hb⟩ := h1 h0
      obtain ⟨b0, hb0⟩ := Option.isSome_iff_exists.mp hb
      dsimp only
      rw [hb0]
      refine ⟨fun _ => ⟨rbNext_lt _ _ h0, ht, rfl⟩,
              fun hz => absurd hz (by omega), ?_⟩
      intro b hb2
      have hb3 : some (b0.set c.head d) = some b := hb2
      injection hb3 with hb3
      rw [← hb3, List.length_set]
      exact h3 b0 hb0

theorem inv_pop (c : t_rb) (e : Nat) (hc : Inv c) : Inv (rb_pop c e).2.1 := by
  obtain ⟨h1, h2, h3⟩ := hc
  unfold rb_pop Inv
  split
  · exact ⟨h1, h2, h3⟩
  · rename_i hne
    rcases Nat.eq_zero_or_pos c.maxlen with h0 | h0
    · exact absurd ((h2 h0).1.trans (h2 h0).2.symm) hne
    · obtain ⟨hh, ht, hb⟩ := h1 h0
      dsimp only
      exact ⟨fun _ => ⟨hh, rbNext_lt _ _ h0, hb⟩,
             fun hz => absurd hz (by omega), h3⟩

theorem inv_reachable (c : t_rb) (h : Reachable c) : Inv c := by
  induction h with
  | init size mem hlen => exact inv_init size mem hlen
  | push c d _ ih => exact inv_push c d ih
  | pop c d _ ih => exact inv_pop c d ih
  | clean c _ => exact inv_clean c

theorem rbNext_eq_mod (maxlen i : Nat) (h : i < maxlen) :
    rbNext maxlen i = (i + 1) % maxlen := by
  unfold rbNext
  split
  · have h1 : i + 1 = maxlen := by omega
    rw [h1, Nat.mod_self]
  · exact (Nat.mod_eq_of_lt (by omega)).symm

theorem count_formula (hd tl C : Nat) (hh : hd < C) (ht : tl < C) :
    (hd + C - tl) % C = if tl ≤ hd then hd - tl else hd + C - tl := by
  split
  · have h1 : hd + C - tl = (hd - tl) + C := by omega
    rw [h1, Nat.add_mod_right]
    exact Nat.mod_eq_of_lt (by omega)
  · exact Nat.mod_eq_of_lt (by omega)

theorem rbCount_le (c : t_rb) (hc : Inv c) : rbCount c ≤ c.maxlen - 1 := by
  obtain ⟨h1, h2, _⟩ := hc
  rcases Nat.eq_zero_or_pos c.maxlen with h0 | h0
  · obtain ⟨hh, ht⟩ := h2 h0
    simp [rbCount, hh, ht, h0]
  · have := Nat.mod_lt (c.head + c.maxlen - c.tail) h0
    unfold rbCount
    omega

theorem rbCount_zero_iff (c : t_rb) (hc : Inv c) :
    rbCount c = 0 ↔ c.head = c.tail := by
  obtain ⟨h1, h2, _⟩ := hc
  rcases Nat.eq_zero_or_pos c.maxlen with h0 | h0
  · obtain ⟨hh, ht⟩ := h2 h0
    simp [rbCount, hh, ht, h0]
  · obtain ⟨hh, ht, _⟩ := h1 h0
    unfold rbCount
    rw [count_formula _ _ _ hh ht]
    split <;> omega

theorem tail_add_count (c : t_rb) (hh : c.head < c.maxlen) (ht : c.tail < c.maxlen) :
    (c.tail + rbCount c) % c.maxlen = c.head := by
  unfold rbCount
  rw [count_formula _ _ _ hh ht]
  split
  · have h1 : c.tail + (c.head - c.tail) = c.head := by omega
    rw [h1]
    exact Nat.mod_eq_of_lt hh
  · have h1 : c.tail + (c.head + c.maxlen - c.tail) = c.head + c.maxlen := by omega
    rw [h1, Nat.add_mod_right]
    exact Nat.mod_eq_of_lt hh

theorem push_full_iff (c : t_rb) (d : Nat)
    (hh : c.head < c.maxlen) (ht : c.tail < c.maxlen) :
    (rb_push c d).1 = -1 ↔ rbCount c = c.maxlen - 1 := by
  have h0 : 0 < c.maxlen := by omega
  have key : rbNext c.maxlen c.head = c.tail ↔ rbCount c = c.maxlen - 1 := by
    unfold rbNext rbCount
    rw [count_formula _ _ _ hh ht]
    split <;> split <;> omega
  by_cases hfull : rbNext c.maxlen c.head = c.tail
  · simpa [rb_push, hfull] using key.mp hfull
  · simp only [rb_push, if_neg hfull]
    constructor
    · intro h
      simp at h
    · intro h
      exact absurd (key.mpr h) hfull

theorem push_succ_eq (c : t_rb) (d : Nat) (h : (rb_push c d).1 = 0) :
    rbNext c.maxlen c.head ≠ c.tail ∧
      (rb_push c d).2 = { c with buffer := Option.map (fun b => b.set c.head d) c.buffer,
                                 head := rbNext c.maxlen c.head } := by
  by_cases hfull : rbNext c.maxlen c.head = c.tail
  · simp [rb_push, hfull] at h
  · exact ⟨hfull, by simp [rb_push, hfull]⟩

theorem pop_empty_iff (c : t_rb) (e : Nat) :
    (rb_pop c e).1 = -1 ↔ c.head = c.tail := by
  by_cases hemp : c.head = c.tail
  · simp [rb_pop, hemp]
  · simp [rb_pop, hemp]

theorem pop_succ_eq (c : t_rb) (e : Nat) (h : c.head ≠ c.tail) :
    (rb_pop c e).1 = 0 ∧
      (rb_pop c e).2.1 = { c with tail := rbNext c.maxlen c.tail } ∧
      (rb_pop c e).2.2 = (c.buffer.getD []).getD c.tail 0 := by
  simp [rb_pop, h]

theorem count_push_succ (hd tl C : Nat) (hh : hd < C) (ht : tl < C)
    (hne : rbNext C hd ≠ tl) :
    (rbNext C hd + C - tl) % C = (hd + C - tl) % C + 1 := by
  have h0 : 0 < C := by omega
  by_cases hw : C ≤ hd + 1
  · have hx : rbNext C hd = 0 := by simp [rbNext, hw]
    rw [hx] at hne ⊢
    rw [count_formula 0 tl C h0 ht, count_formula hd tl C hh ht]
    split <;> split <;> omega
  · have hx : rbNext C hd = hd + 1 := by simp [rbNext, hw]
    rw [hx] at hne ⊢
    rw [count_formula (hd + 1) tl C (by omega) ht, count_formula hd tl C hh ht]
    split <;> split <;> omega

theorem count_pop_succ (hd tl C : Nat) (hh : hd < C) (ht : tl < C)
    (hne : hd ≠ tl) :
    (hd + C - rbNext C tl) % C = (hd + C - tl) % C - 1 := by
  have h0 : 0 < C := by omega
  by_cases hw : C ≤ tl + 1
  · have hx : rbNext C tl = 0 := by simp [rbNext, hw]
    rw [hx, count_formula hd 0 C hh h0, count_formula hd tl C hh ht]
    split <;> split <;> omega
  · have hx : rbNext C tl = tl + 1 := by simp [rbNext, hw]
    rw [hx, count_formula hd (tl + 1) C hh (by omega), count_formula hd tl C hh ht]
    split <;> split <;> omega

/-- On a successful push, the occupied count grows by one and `tail`, `maxlen`
    are untouched. -/
theorem rbCount_push (c : t_rb) (d : Nat) (hc : Inv c) (h : (rb_push c d).1 = 0) :
    rbCount (rb_push c d).2 = rbCount c + 1 ∧
      (rb_push c d).2.tail = c.tail ∧ (rb_push c d).2.maxlen = c.maxlen := by
  obtain ⟨hne, heq⟩ := push_succ_eq c d h
  obtain ⟨h1, h2, _⟩ := hc
  rcases Nat.eq_zero_or_pos c.maxlen with h0 | h0
  · obtain ⟨hh, ht⟩ := h2 h0
    exact absurd (by simp [rbNext, hh, ht, h0]) hne
  · obtain ⟨hh, ht, _⟩ := h1 h0
    rw [heq]
    exact ⟨count_push_succ c.head c.tail c.maxlen hh ht hne, rfl, rfl⟩

theorem mod_inj (C t i j : Nat) (hi : i < C) (hj : j < C)
    (h : (t + i) % C = (t + j) % C) : i = j := by
  have hm : Nat.ModEq C (t + i) (t + j) := h
  have h2 := Nat.ModEq.add_left_cancel' t hm
  rwa [Nat.ModEq, Nat.mod_eq_of_lt hi, Nat.mod_eq_of_lt hj] at h2

theorem getD_set_self (b : List Nat) (i d : Nat) (h : i < b.length) :
    (b.set i d).getD i 0 = d := by
  rw [List.getD_eq_getElem?_getD, List.getElem?_set_eq_of_lt d h]
  rfl

theorem getD_set_ne (b : List Nat) (i j d : Nat) (h : i ≠ j) :
    (b.set i d).getD j 0 = b.getD j 0 := by
  rw [List.getD_eq_getElem?_getD, List.getD_eq_getElem?_getD, List.getElem?_set_ne h]

/-- The content of storage cell `i` (0 when unallocated or out of bounds). -/
def bufAt (c : t_rb) (i : Nat) : Nat :=
  (c.buffer.getD []).getD i 0

/-- The abstract queue a state represents: the occupied cells read from `tail`
    in circular order. -/
def absQueue (c : t_rb) : List Nat :=
  (List.range (rbCount c)).map (fun i => bufAt c ((c.tail + i) % c.maxlen))

theorem rbCount_of_empty (c : t_rb) (h : c.head = c.tail) : rbCount c = 0 := by
  unfold rbCount
  have h1 : c.head + c.maxlen - c.tail = c.maxlen := by omega
  rw [h1, Nat.mod_self]

theorem absQueue_of_empty (c : t_rb) (h : c.head = c.tail) : absQueue c = [] := by
  unfold absQueue
  rw [rbCount_of_empty c h]
  rfl

/-- On a successful pop, the occupied count shrinks by one and `head`, `maxlen`,
    `buffer` are untouched. -/
theorem rbCount_pop (c : t_rb) (e : Nat) (hc : Inv c) (h : c.head ≠ c.tail) :
    rbCount (rb_pop c e).2.1 = rbCount c - 1 ∧
      (rb_pop c e).2.1.head = c.head ∧ (rb_pop c e).2.1.maxlen = c.maxlen ∧
      (rb_pop c e).2.1.buffer = c.buffer := by
  obtain ⟨_, heq, _⟩ := pop_succ_eq c e h
  obtain ⟨h1, h2, _⟩ := hc
  rcases Nat.eq_zero_or_pos c.maxlen with h0 | h0
  · exact absurd ((h2 h0).1.trans (h2 h0).2.symm) h
  · obtain ⟨hh, ht, _⟩ := h1 h0
    rw [heq]
    exact ⟨count_pop_succ c.head c.tail c.maxlen hh ht h, rfl, rfl, rfl⟩

theorem absQueue_push_aux (b0 : List Nat) (hd tl C d : Nat)
    (hh : hd < C) (ht : tl < C) (hlen : b0.length = C) (hne : rbNext C hd ≠ tl) :
    absQueue ⟨some (b0.set hd d), rbNext C hd, tl, C⟩ =
      absQueue ⟨some b0, hd, tl, C⟩ ++ [d] := by
  have h0 : 0 < C := by omega
  have hmod : (tl + (hd + C - tl) % C) % C = hd :=
    tail_add_count ⟨some b0, hd, tl, C⟩ hh ht
  have hnC : (hd + C - tl) % C < C := Nat.mod_lt _ h0
  unfold absQueue bufAt rbCount
  dsimp only
  rw [count_push_succ hd tl C hh ht hne, List.range_succ, List.map_append]
  congr 1
  · apply List.map_congr_left
    intro i hi
    rw [List.mem_range] at hi
    dsimp only
    have hidx : (tl + i) % C ≠ hd := by
      intro hx
      have hx2 : (tl + i) % C = (tl + (hd + C - tl) % C) % C := by rw [hx, hmod]
      have := mod_inj C tl i ((hd + C - tl) % C) (by omega) hnC hx2
      omega
    exact getD_set_ne b0 hd ((tl + i) % C) d (fun he => hidx he.symm)
  · simp only [List.map_cons, List.map_nil]
    rw [hmod]
    show [(b0.set hd d).getD hd 0] = [d]
    rw [getD_set_self b0 hd d (by omega)]

theorem absQueue_pop_aux (b0 : List Nat) (hd tl C : Nat)
    (hh : hd < C) (ht : tl < C) (hne : hd ≠ tl) :
    absQueue ⟨some b0, hd, tl, C⟩ =
      b0.getD tl 0 :: absQueue ⟨some b0, hd, rbNext C tl, C⟩ := by
  have h0 : 0 < C := by omega
  unfold absQueue bufAt rbCount
  dsimp only
  rw [count_pop_succ hd tl C hh ht hne]
  have hpos : 0 < (hd + C - tl) % C := by
    rcases Nat.eq_zero_or_pos ((hd + C - tl) % C) with hz | hp
    · rw [count_formula hd tl C hh ht] at hz
      split at hz <;> omega
    · exact hp
  obtain ⟨m, hm⟩ : ∃ m, (hd + C - tl) % C = m + 1 :=
    ⟨_, (Nat.succ_pred_eq_of_pos hpos).symm⟩
  rw [hm, Nat.add_sub_cancel, List.range_succ_eq_map, List.map_cons]
  congr 1
  · simp only [Nat.add_zero, Nat.mod_eq_of_lt ht]
    rfl
  · rw [List.map_map]
    apply List.map_congr_left
    intro i hi
    dsimp only [Function.comp]
    have h1 : (rbNext C tl + i) % C = (tl + (i + 1)) % C := by
      rw [rbNext_eq_mod C tl ht, Nat.mod_add_mod]
      have h2 : tl + 1 + i = tl + (i + 1) := by omega
      rw [h2]
    rw [h1]

/-- A successful push appends its datum to the abstract queue. -/
theorem absQueue_push (c : t_rb) (d : Nat) (hc : Inv c) (h : (rb_push c d).1 = 0) :
    absQueue (rb_push c d).2 = absQueue c ++ [d] := by
  obtain ⟨hne, heq⟩ := push_succ_eq c d h
  obtain ⟨h1, h2, h3⟩ := hc
  rcases Nat.eq_zero_or_pos c.maxlen with h0 | h0
  · obtain ⟨hh, ht⟩ := h2 h0
    exact absurd (by simp [rbNext, hh, ht, h0]) hne
  · obtain ⟨hh, ht, hb⟩ := h1 h0
    obtain ⟨b0, hb0⟩ := Option.isSome_iff_exists.mp hb
    have hlen : b0.length = c.maxlen := h3 b0 hb0
    have hX : (rb_push c d).2 =
        t_rb.mk (some (b0.set c.head d)) (rbNext c.maxlen c.head) c.tail c.maxlen := by
      rw [heq, hb0]
      rfl
    have hc2 : c = t_rb.mk (some b0) c.head c.tail c.maxlen := by
      rw [← hb0]
    rw [hX]
    conv_rhs => rw [hc2]
    exact absQueue_push_aux b0 c.head c.tail c.maxlen d hh ht hlen hne

/-- A successful pop removes and returns the front of the abstract queue. -/
theorem absQueue_pop (c : t_rb) (e : Nat) (hc : Inv c) (h : c.head ≠ c.tail) :
    absQueue c = (rb_pop c e).2.2 :: absQueue (rb_pop c e).2.1 := by
  obtain ⟨hr, heq, hout⟩ := pop_succ_eq c e h
  obtain ⟨h1, h2, h3⟩ := hc
  rcases Nat.eq_zero_or_pos c.maxlen with h0 | h0
  · exact absurd ((h2 h0).1.trans (h2 h0).2.symm) h
  · obtain ⟨hh, ht, hb⟩ := h1 h0
    obtain ⟨b0, hb0⟩ := Option.isSome_iff_exists.mp hb
    have hX : (rb_pop c e).2.1 =
        t_rb.mk (some b0) c.head (rbNext c.maxlen c.tail) c.maxlen := by
      rw [heq, hb0]
    have hout2 : (rb_pop c e).2.2 = b0.getD c.tail 0 := by
      rw [hout, hb0]
      rfl
    have hc2 : c = t_rb.mk (some b0) c.head c.tail c.maxlen := by
      rw [← hb0]
    rw [hX, hout2]
    conv_lhs => rw [hc2]
    exact absQueue_pop_aux b0 c.head c.tail c.maxlen hh ht h

/-- A client call: `push d` is `rb_push(&c, d)`; `pop e` is `rb_pop(&c, &x)` where
    the caller cell `x` held `e` before the call. -/
inductive Op where
  | push : Nat → Op
  | pop : Nat → Op
deriving DecidableEq, Repr

/-- Execute a list of calls.  Returns the final state, the data accepted by the
    successful pushes (in call order), and the data delivered by the successful
    pops (in call order). -/
def runOps (c : t_rb) : List Op → t_rb × List Nat × List Nat
  | [] => (c, [], [])
  | Op.push d :: ops =>
    let r := rb_push c d
    let rest := runOps r.2 ops
    (rest.1, (if r.1 = 0 then [d] else []) ++ rest.2.1, rest.2.2)
  | Op.pop e :: ops =>
    let r := rb_pop c e
    let rest := runOps r.2.1 ops
    (rest.1, rest.2.1, (if r.1 = 0 then [r.2.2] else []) ++ rest.2.2)

theorem runOps_inv (ops : List Op) (c : t_rb) (hc : Inv c) :
    Inv (runOps c ops).1 ∧ (runOps c ops).1.maxlen = c.maxlen := by
  induction ops generalizing c with
  | nil => exact ⟨hc, rfl⟩
  | cons op ops ih =>
    cases op with
    | push d =>
      obtain ⟨ha, hb⟩ := ih (rb_push c d).2 (inv_push c d hc)
      refine ⟨ha, hb.trans ?_⟩
      by_cases hfull : rbNext c.maxlen c.head = c.tail
      · simp [rb_push, hfull]
      · simp [rb_push, hfull]
    | pop e =>
      obtain ⟨ha, hb⟩ := ih (rb_pop c e).2.1 (inv_pop c e hc)
      refine ⟨ha, hb.trans ?_⟩
      by_cases hemp : c.head = c.tail
      · simp [rb_pop, hemp]
      · simp [rb_pop, hemp]

/-- The FIFO ledger invariant: along any run, the successfully popped data
    followed by what is still queued equals what was queued initially followed
    by the successfully pushed data. -/
theorem runOps_fifo (ops : List Op) (c : t_rb) (hc : Inv c) :
    (runOps c ops).2.2 ++ absQueue (runOps c ops).1 =
      absQueue c ++ (runOps c ops).2.1 := by
  induction ops generalizing c with
  | nil => simp [runOps]
  | cons op ops ih =>
    cases op with
    | push d =>
      show (runOps (rb_push c d).2 ops).2.2 ++ absQueue (runOps (rb_push c d).2 ops).1 =
        absQueue c ++ ((if (rb_push c d).1 = 0 then [d] else []) ++
          (runOps (rb_push c d).2 ops).2.1)
      rw [ih (rb_push c d).2 (inv_push c d hc)]
      by_cases hs : (rb_push c d).1 = 0
      · rw [absQueue_push c d hc hs, if_pos hs, List.append_assoc]
      · rw [(push_fail_eq c d hs).2, if_neg hs, List.nil_append]
    | pop e =>
      show (if (rb_pop c e).1 = 0 then [(rb_pop c e).2.2] else []) ++
          (runOps (rb_pop c e).2.1 ops).2.2 ++
          absQueue (runOps (rb_pop c e).2.1 ops).1 =
        absQueue c ++ (runOps (rb_pop c e).2.1 ops).2.1
      rw [List.append_assoc, ih (rb_pop c e).2.1 (inv_pop c e hc)]
      by_cases hs : (rb_pop c e).1 = 0
      · have hne : c.head ≠ c.tail := by
          intro hx
          rw [(pop_empty_iff c e).mpr hx] at hs
          simp at hs
        rw [if_pos hs, absQueue_pop c e hc hne]
        rfl
      · obtain ⟨_, h2, _⟩ := pop_fail_eq c e hs
        rw [if_neg hs, h2, List.nil_append]

/-- Number of successful pushes when attempting the data `ds` in order. -/
def pushSuccesses (c : t_rb) : List Nat → Nat
  | [] => 0
  | d :: ds => (if (rb_push c d).1 = 0 then 1 else 0) + pushSuccesses (rb_push c d).2 ds

theorem pushSuccesses_le (ds : List Nat) (c : t_rb) (hc : Inv c) (h0 : 0 < c.maxlen) :
    pushSuccesses c ds + rbCount c ≤ c.maxlen - 1 := by
  induction ds generalizing c with
  | nil =>
    simpa [pushSuccesses] using rbCount_le c hc
  | cons d ds ih =>
    by_cases hs : (rb_push c d).1 = 0
    · obtain ⟨hcnt, _, hlen⟩ := rbCount_push c d hc hs
      have := ih (rb_push c d).2 (inv_push c d hc) (by omega)
      show (if (rb_push c d).1 = 0 then 1 else 0) + pushSuccesses (rb_push c d).2 ds +
        rbCount c ≤ c.maxlen - 1
      rw [if_pos hs]
      omega
    · obtain ⟨_, heq⟩ := push_fail_eq c d hs
      have := ih (rb_push c d).2 (by rw [heq]; exact hc) (by rw [heq]; exact h0)
      show (if (rb_push c d).1 = 0 then 1 else 0) + pushSuccesses (rb_push c d).2 ds +
        rbCount c ≤ c.maxlen - 1
      rw [if_neg hs, heq] at *
      omega

/-- Push the data `ds` in order (keeping the state changes, successful or not). -/
def pushSeq (c : t_rb) : List Nat → t_rb
  | [] => c
  | d :: ds => pushSeq (rb_push c d).2 ds

/-- Whether every push in the sequence succeeds. -/
def pushSeqOk (c : t_rb) : List Nat → Bool
  | [] => true
  | d :: ds => decide ((rb_push c d).1 = 0) && pushSeqOk (rb_push c d).2 ds

/-- Pop `k` times (the caller cell holding 0 before each call). -/
def popSeq (c : t_rb) : Nat → t_rb
  | 0 => c
  | k + 1 => popSeq (rb_pop c 0).2.1 k

/-- Whether every one of the `k` pops succeeds. -/
def popSeqOk (c : t_rb) : Nat → Bool
  | 0 => true
  | k + 1 => decide ((rb_pop c 0).1 = 0) && popSeqOk (rb_pop c 0).2.1 k

theorem pushSeq_all (ds : List Nat) (c : t_rb) (hc : Inv c)
    (hroom : rbCount c + ds.length ≤ c.maxlen - 1) :
    pushSeqOk c ds = true ∧ Inv (pushSeq c ds) ∧
      (pushSeq c ds).maxlen = c.maxlen ∧
      rbCount (pushSeq c ds) = rbCount c + ds.length := by
  induction ds generalizing c with
  | nil => exact ⟨rfl, hc, rfl, rfl⟩
  | cons d ds ih =>
    have h0 : 0 < c.maxlen := by
      rcases Nat.eq_zero_or_pos c.maxlen with hz | hp
      · exfalso
        simp [List.length_cons] at hroom
        omega
      · exact hp
    obtain ⟨hh, ht, _⟩ := hc.1 h0
    have hs : (rb_push c d).1 = 0 := by
      by_cases hx : (rb_push c d).1 = 0
      · exact hx
      · exfalso
        obtain ⟨hm1, _⟩ := push_fail_eq c d hx
        have hfull := (push_full_iff c d hh ht).mp hm1
        simp [List.length_cons] at hroom
        omega
    obtain ⟨hcnt, _, hlen⟩ := rbCount_push c d hc hs
    have hih := ih (rb_push c d).2 (inv_push c d hc)
      (by rw [hcnt, hlen]; simp [List.length_cons] at hroom ⊢; omega)
    refine ⟨?_, hih.2.1, hih.2.2.1.trans hlen, ?_⟩
    · show (decide ((rb_push c d).1 = 0) && pushSeqOk (rb_push c d).2 ds) = true
      rw [hs]
      simp [hih.1]
    · show rbCount (pushSeq (rb_push c d).2 ds) = rbCount c + (d :: ds).length
      rw [hih.2.2.2, hcnt, List.length_cons]
      omega

theorem popSeq_all (k : Nat) (c : t_rb) (hc : Inv c) (hk : k ≤ rbCount c) :
    popSeqOk c k = true ∧ Inv (popSeq c k) ∧
      (popSeq c k).maxlen = c.maxlen ∧
      rbCount (popSeq c k) = rbCount c - k := by
  induction k generalizing c with
  | zero => exact ⟨rfl, hc, rfl, rfl⟩
  | succ k ih =>
    have hne : c.head ≠ c.tail := by
      intro hx
      rw [← rbCount_zero_iff c hc] at hx
      omega
    obtain ⟨hs, _, _⟩ := pop_succ_eq c 0 hne
    obtain ⟨hcnt, _, hlen, _⟩ := rbCount_pop c 0 hc hne
    have hih := ih (rb_pop c 0).2.1 (inv_pop c 0 hc) (by omega)
    refine ⟨?_, hih.2.1, hih.2.2.1.trans hlen, ?_⟩
    · show (decide ((rb_pop c 0).1 = 0) && popSeqOk (rb_pop c 0).2.1 k) = true
      rw [hs]
      simp [hih.1]
    · show rbCount (popSeq (rb_pop c 0).2.1 k) = rbCount c - (k + 1)
      rw [hih.2.2.2, hcnt]
      omega

/-- C1: from any reachable state of a buffer of capacity C >= 2, a run of
    consecutive rb_push calls has at most C - 1 successes, and the occupied
    count never exceeds C - 1. -/
theorem claim_C1 (c : t_rb) (C : Nat) (ds : List Nat) (hre : Reachable c)
    (hC : c.maxlen = C) (h2 : 2 ≤ C) :
    pushSuccesses c ds ≤ C - 1 ∧ rbCount c ≤ C - 1 := by
  have hc := inv_reachable c hre
  have h := pushSuccesses_le ds c hc (by omega)
  have h3 := rbCount_le c hc
  rw [hC] at h h3
  exact ⟨by omega, h3⟩

theorem claim_C1_witness :
    pushSuccesses (rb_init 2 [0, 0]) [5, 6, 7] ≤ 2 - 1 ∧
      rbCount (rb_init 2 [0, 0]) ≤ 2 - 1 :=
  claim_C1 (rb_init 2 [0, 0]) 2 [5, 6, 7]
    (Reachable.init 2 [0, 0] rfl) rfl (by decide)

/-- C2: for every interleaving of push/pop calls on an initialized buffer, the
    data delivered by the successful pops, followed by what is still queued,
    equals the data accepted by the successful pushes, in order; in particular
    when the buffer is drained at the end, pops returned exactly the pushed
    sequence. -/
theorem claim_C2 (C : Nat) (mem : List Nat) (ops : List Op) (hmem : mem.length = C) :
    (runOps (rb_init C mem) ops).2.2 ++ absQueue (runOps (rb_init C mem) ops).1 =
        (runOps (rb_init C mem) ops).2.1 ∧
      (absQueue (runOps (rb_init C mem) ops).1 = [] →
        (runOps (rb_init C mem) ops).2.2 = (runOps (rb_init C mem) ops).2.1) := by
  have h := runOps_fifo ops (rb_init C mem) (inv_init C mem hmem)
  rw [absQueue_of_empty (rb_init C mem) rfl, List.nil_append] at h
  refine ⟨h, fun hq => ?_⟩
  rw [hq, List.append_nil] at h
  exact h

theorem claim_C2_witness :
    (runOps (rb_init 5 [0, 0, 0, 0, 0])
        [Op.push 10, Op.push 20, Op.pop 0, Op.pop 0]).2.2 =
      (runOps (rb_init 5 [0, 0, 0, 0, 0])
        [Op.push 10, Op.push 20, Op.pop 0, Op.pop 0]).2.1 :=
  (claim_C2 5 [0, 0, 0, 0, 0]
    [Op.push 10, Op.push 20, Op.pop 0, Op.pop 0] rfl).2 (by decide)

/-- C3: a push returning the Full error (-1) changes nothing; a pop returning
    the Empty error (-1) changes neither the state nor the out cell of the caller. -/
theorem claim_C3 (c : t_rb) (d e : Nat) :
    ((rb_push c d).1 = -1 → (rb_push c d).2 = c) ∧
      ((rb_pop c e).1 = -1 → (rb_pop c e).2.1 = c ∧ (rb_pop c e).2.2 = e) := by
  constructor
  · intro h
    exact (push_fail_eq c d (by omega)).2
  · intro h
    obtain ⟨_, h2, h3⟩ := pop_fail_eq c e (by omega)
    exact ⟨h2, h3⟩

theorem claim_C3_witness :
    (rb_push (rb_init 1 [0]) 5).2 = rb_init 1 [0] ∧
      (rb_pop (rb_init 1 [0]) 9).2.1 = rb_init 1 [0] ∧
      (rb_pop (rb_init 1 [0]) 9).2.2 = 9 :=
  ⟨(claim_C3 (rb_init 1 [0]) 5 9).1 (by decide),
   (claim_C3 (rb_init 1 [0]) 5 9).2 (by decide)⟩

/-- C4: with head and tail in [0, capacity), rb_push returns Full iff
    (head + 1) % capacity = tail, mutating nothing in that case; otherwise it
    writes data into storage[head], advances head to (head + 1) % capacity and
    returns success. -/
theorem claim_C4 (c : t_rb) (d : Nat) (hh : c.head < c.maxlen) (ht : c.tail < c.maxlen) :
    ((rb_push c d).1 = -1 ↔ (c.head + 1) % c.maxlen = c.tail) ∧
      ((rb_push c d).1 = -1 → (rb_push c d).2 = c) ∧
      ((c.head + 1) % c.maxlen ≠ c.tail →
        (rb_push c d).1 = 0 ∧
        (rb_push c d).2 =
          { c with buffer := Option.map (fun b => b.set c.head d) c.buffer,
                   head := (c.head + 1) % c.maxlen }) := by
  have hmod := rbNext_eq_mod c.maxlen c.head hh
  by_cases hfull : rbNext c.maxlen c.head = c.tail
  · have hm : (c.head + 1) % c.maxlen = c.tail := hmod ▸ hfull
    exact ⟨by simp [rb_push, hfull, hm], fun _ => by simp [rb_push, hfull],
           fun hx => absurd hm hx⟩
  · have hm : (c.head + 1) % c.maxlen ≠ c.tail := by
      rw [← hmod]
      exact hfull
    refine ⟨by simp [rb_push, hfull, hm], fun h => by simp [rb_push, hfull] at h,
            fun _ => ⟨by simp [rb_push, hfull], ?_⟩⟩
    rw [← hmod]
    simp [rb_push, hfull]

theorem claim_C4_witness :
    ((rb_push (rb_init 2 [0, 0]) 7).1 = -1 ↔
        ((rb_init 2 [0, 0]).head + 1) % (rb_init 2 [0, 0]).maxlen =
          (rb_init 2 [0, 0]).tail) ∧
      (rb_push (rb_init 2 [0, 0]) 7).1 = 0 :=
  ⟨(claim_C4 (rb_init 2 [0, 0]) 7 (by decide) (by decide)).1,
   ((claim_C4 (rb_init 2 [0, 0]) 7 (by decide) (by decide)).2.2 (by decide)).1⟩

/-- C5: rb_pop returns the Empty error iff head = tail, in that case changing
    nothing and leaving the out cell alone; otherwise (with tail in range, as
    the invariant guarantees) it copies storage[tail] to the out cell, advances
    tail to (tail + 1) % capacity and returns success. -/
theorem claim_C5 (c : t_rb) (e : Nat) :
    ((rb_pop c e).1 = -1 ↔ c.head = c.tail) ∧
      ((rb_pop c e).1 = -1 → (rb_pop c e).2.1 = c ∧ (rb_pop c e).2.2 = e) ∧
      (c.head ≠ c.tail → c.tail < c.maxlen →
        (rb_pop c e).1 = 0 ∧
        (rb_pop c e).2.1 = { c with tail := (c.tail + 1) % c.maxlen } ∧
        (rb_pop c e).2.2 = (c.buffer.getD []).getD c.tail 0) := by
  refine ⟨pop_empty_iff c e, fun h => ?_, fun hne ht => ?_⟩
  · obtain ⟨_, h2, h3⟩ := pop_fail_eq c e (by omega)
    exact ⟨h2, h3⟩
  · obtain ⟨h1, h2, h3⟩ := pop_succ_eq c e hne
    rw [← rbNext_eq_mod c.maxlen c.tail ht]
    exact ⟨h1, h2, h3⟩

theorem claim_C5_witness :
    ((rb_pop (t_rb.mk (some [7, 0]) 1 0 2) 3).1 = -1 ↔
        (t_rb.mk (some [7, 0]) 1 0 2).head = (t_rb.mk (some [7, 0]) 1 0 2).tail) ∧
      (rb_pop (t_rb.mk (some [7, 0]) 1 0 2) 3).1 = 0 ∧
      (rb_pop (t_rb.mk (some [7, 0]) 1 0 2) 3).2.2 = 7 :=
  ⟨(claim_C5 (t_rb.mk (some [7, 0]) 1 0 2) 3).1,
   ((claim_C5 (t_rb.mk (some [7, 0]) 1 0 2) 3).2.2 (by decide) (by decide)).1,
   (((claim_C5 (t_rb.mk (some [7, 0]) 1 0 2) 3).2.2 (by decide) (by decide)).2.2).trans
     (by decide)⟩

/-- C6: after initializing with capacity C >= 1 and running any finite sequence
    of rb_push / rb_pop calls, head and tail are both in [0, C). -/
theorem claim_C6 (C : Nat) (mem : List Nat) (ops : List Op)
    (hC : 1 ≤ C) (hmem : mem.length = C) :
    (runOps (rb_init C mem) ops).1.head < C ∧
      (runOps (rb_init C mem) ops).1.tail < C := by
  obtain ⟨hinv, hlen⟩ := runOps_inv ops (rb_init C mem) (inv_init C mem hmem)
  obtain ⟨hh, ht, _⟩ := hinv.1 (by rw [hlen]; show 0 < C; omega)
  rw [hlen] at hh ht
  exact ⟨hh, ht⟩

theorem claim_C6_witness :
    (runOps (rb_init 1 [0]) [Op.push 3, Op.pop 0]).1.head < 1 ∧
      (runOps (rb_init 1 [0]) [Op.push 3, Op.pop 0]).1.tail < 1 :=
  claim_C6 1 [0] [Op.push 3, Op.pop 0] (by decide) rfl

/-- C7: from any reachable state with head = tail, pushing k <= C - 1 values and
    then popping k times all succeeds, ends with head = tail again, and the next
    rb_pop reports Empty. -/
theorem claim_C7 (c : t_rb) (ds : List Nat) (hre : Reachable c)
    (hempty : c.head = c.tail) (hk : ds.length ≤ c.maxlen - 1) :
    pushSeqOk c ds = true ∧
      popSeqOk (pushSeq c ds) ds.length = true ∧
      (popSeq (pushSeq c ds) ds.length).head = (popSeq (pushSeq c ds) ds.length).tail ∧
      (rb_pop (popSeq (pushSeq c ds) ds.length) 0).1 = -1 := by
  have hc := inv_reachable c hre
  have hcnt0 : rbCount c = 0 := rbCount_of_empty c hempty
  obtain ⟨hok, hinv1, hlen1, hcnt1⟩ := pushSeq_all ds c hc (by omega)
  obtain ⟨hok2, hinv2, hlen2, hcnt2⟩ :=
    popSeq_all ds.length (pushSeq c ds) hinv1 (by omega)
  have hfin : (popSeq (pushSeq c ds) ds.length).head =
      (popSeq (pushSeq c ds) ds.length).tail := by
    rw [← rbCount_zero_iff _ hinv2]
    omega
  exact ⟨hok, hok2, hfin, (pop_empty_iff _ 0).mpr hfin⟩

theorem claim_C7_witness :
    pushSeqOk (rb_init 5 [0, 0, 0, 0, 0]) [1, 2, 3, 4] = true ∧
      popSeqOk (pushSeq (rb_init 5 [0, 0, 0, 0, 0]) [1, 2, 3, 4]) 4 = true ∧
      (popSeq (pushSeq (rb_init 5 [0, 0, 0, 0, 0]) [1, 2, 3, 4]) 4).head =
        (popSeq (pushSeq (rb_init 5 [0, 0, 0, 0, 0]) [1, 2, 3, 4]) 4).tail ∧
      (rb_pop (popSeq (pushSeq (rb_init 5 [0, 0, 0, 0, 0]) [1, 2, 3, 4]) 4) 0).1 = -1 :=
  claim_C7 (rb_init 5 [0, 0, 0, 0, 0]) [1, 2, 3, 4]
    (Reachable.init 5 [0, 0, 0, 0, 0] rfl) rfl (by decide)

/-- C8: rb_clean zeroes head, tail and capacity, nulls the storage pointer, is
    idempotent, and a second rb_clean performs no second free (the freed flag is
    false on an already-cleaned state). -/
theorem claim_C8 (c : t_rb) :
    (rb_clean c).head = 0 ∧ (rb_clean c).tail = 0 ∧ (rb_clean c).maxlen = 0 ∧
      (rb_clean c).buffer = none ∧
      rb_clean (rb_clean c) = rb_clean c ∧
      rbCleanFrees (rb_clean c) = false :=
  ⟨rfl, rfl, rfl, rfl, rfl, rfl⟩

/-- C9: in every reachable state with capacity 0 (a size-0 init, or any state
    after rb_clean), rb_push reports Full and rb_pop reports Empty, neither
    touching the state, the storage, nor the out cell of the caller.  (Wraparound
    in `rbNext` is by comparison, as in the source: no division or modulo is
    performed, so capacity 0 causes no division by zero.) -/
theorem claim_C9 (c : t_rb) (d e : Nat) (hre : Reachable c) (h0 : c.maxlen = 0) :
    (rb_push c d).1 = -1 ∧ (rb_push c d).2 = c ∧
      (rb_pop c e).1 = -1 ∧ (rb_pop c e).2.1 = c ∧ (rb_pop c e).2.2 = e := by
  have hc := inv_reachable c hre
  obtain ⟨hh, ht⟩ := hc.2.1 h0
  have hfull : rbNext c.maxlen c.head = c.tail := by simp [rbNext, hh, ht, h0]
  have hemp : c.head = c.tail := by omega
  exact ⟨by simp [rb_push, hfull], by simp [rb_push, hfull], by simp [rb_pop, hemp],
         by simp [rb_pop, hemp], by simp [rb_pop, hemp]⟩

theorem claim_C9_witness :
    (rb_push (rb_clean (rb_init 3 [0, 0, 0])) 7).1 = -1 ∧
      (rb_push (rb_clean (rb_init 3 [0, 0, 0])) 7).2 = rb_clean (rb_init 3 [0, 0, 0]) ∧
      (rb_pop (rb_clean (rb_init 3 [0, 0, 0])) 9).1 = -1 ∧
      (rb_pop (rb_clean (rb_init 3 [0, 0, 0])) 9).2.1 = rb_clean (rb_init 3 [0, 0, 0]) ∧
      (rb_pop (rb_clean (rb_init 3 [0, 0, 0])) 9).2.2 = 9 :=
  claim_C9 (rb_clean (rb_init 3 [0, 0, 0])) 7 9
    (Reachable.clean (rb_init 3 [0, 0, 0]) (Reachable.init 3 [0, 0, 0] rfl)) rfl

/-- C10: rb_push changes neither tail nor capacity and writes at most the one
    storage cell at the old head; rb_pop changes neither head, nor capacity,
    nor any storage cell. -/
theorem claim_C10 (c : t_rb) (d e : Nat) :
    (rb_push c d).2.tail = c.tail ∧ (rb_push c d).2.maxlen = c.maxlen ∧
      (∀ i, i ≠ c.head → bufAt (rb_push c d).2 i = bufAt c i) ∧
      (rb_pop c e).2.1.head = c.head ∧ (rb_pop c e).2.1.maxlen = c.maxlen ∧
      (rb_pop c e).2.1.buffer = c.buffer := by
  have hpush : (rb_push c d).2.tail = c.tail ∧ (rb_push c d).2.maxlen = c.maxlen ∧
      (∀ i, i ≠ c.head → bufAt (rb_push c d).2 i = bufAt c i) := by
    by_cases hfull : rbNext c.maxlen c.head = c.tail
    · simp [rb_push, hfull]
    · refine ⟨by simp [rb_push, hfull], by simp [rb_push, hfull], fun i hi => ?_⟩
      have h2 : (rb_push c d).2 =
          { c with buffer := Option.map (fun b => b.set c.head d) c.buffer,
                   head := rbNext c.maxlen c.head } := by
        simp [rb_push, hfull]
      rw [h2]
      cases hb : c.buffer with
      | none => simp [bufAt, hb]
      | some b0 =>
        unfold bufAt
        rw [hb]
        show (b0.set c.head d).getD i 0 = b0.getD i 0
        exact getD_set_ne b0 c.head i d (Ne.symm hi)
  have hpop : (rb_pop c e).2.1.head = c.head ∧ (rb_pop c e).2.1.maxlen = c.maxlen ∧
      (rb_pop c e).2.1.buffer = c.buffer := by
    by_cases hemp : c.head = c.tail
    · simp [rb_pop, hemp]
    · simp [rb_pop, hemp]
  exact ⟨hpush.1, hpush.2.1, hpush.2.2, hpop.1, hpop.2.1, hpop.2.2⟩

theorem claim_C10_witness :
    (rb_push (rb_init 2 [0, 0]) 7).2.tail = (rb_init 2 [0, 0]).tail ∧
      bufAt (rb_push (rb_init 2 [0, 0]) 7).2 1 = bufAt (rb_init 2 [0, 0]) 1 ∧
      (rb_pop (rb_init 2 [0, 0]) 3).2.1.buffer = (rb_init 2 [0, 0]).buffer :=
  ⟨(claim_C10 (rb_init 2 [0, 0]) 7 3).1,
   (claim_C10 (rb_init 2 [0, 0]) 7 3).2.2.1 1 (by decide),
   (claim_C10 (rb_init 2 [0, 0]) 7 3).2.2.2.2.2⟩

end RB
